import Mathlib

/-!
Verification of the transform-chain kinematics core of the
Robot-ToolBox_python repository (src/roboticstoolbox/core/fknm.c and
src/roboticstoolbox/core/methods.cpp), as a shallow embedding over ℝ.
4×4 homogeneous transforms (row-major `npy_float64` buffers in the C code)
become `Matrix (Fin 4) (Fin 4) ℝ`; the C `mult` routine computes exactly
`C[i][j] = Σ_k A[i][k] * B[k][j]`, i.e. Mathlib matrix multiplication.
-/

namespace RTB

open Matrix

/-- A 4×4 homogeneous transform (row-major 16-double buffer in the source). -/
abbrev M4 := Matrix (Fin 4) (Fin 4) ℝ

/-- A 3×3 rotation block. -/
abbrev M3 := Matrix (Fin 3) (Fin 3) ℝ

/-- The elementary rotation about X, `rx` in fknm.c. -/
noncomputable def rxM (η : ℝ) : M4 :=
  !![1, 0, 0, 0;
     0, Real.cos η, -Real.sin η, 0;
     0, Real.sin η, Real.cos η, 0;
     0, 0, 0, 1]

/-- The elementary rotation about Y, `ry` in fknm.c. -/
noncomputable def ryM (η : ℝ) : M4 :=
  !![Real.cos η, 0, Real.sin η, 0;
     0, 1, 0, 0;
     -Real.sin η, 0, Real.cos η, 0;
     0, 0, 0, 1]

/-- The elementary rotation about Z, `rz` in fknm.c. -/
noncomputable def rzM (η : ℝ) : M4 :=
  !![Real.cos η, -Real.sin η, 0, 0;
     Real.sin η, Real.cos η, 0, 0;
     0, 0, 1, 0;
     0, 0, 0, 1]

/-- The elementary translation along X, `tx` in fknm.c. -/
def txM (η : ℝ) : M4 :=
  !![1, 0, 0, η;
     0, 1, 0, 0;
     0, 0, 1, 0;
     0, 0, 0, 1]

/-- The elementary translation along Y, `ty` in fknm.c. -/
def tyM (η : ℝ) : M4 :=
  !![1, 0, 0, 0;
     0, 1, 0, η;
     0, 0, 1, 0;
     0, 0, 0, 1]

/-- The elementary translation along Z, `tz` in fknm.c. -/
def tzM (η : ℝ) : M4 :=
  !![1, 0, 0, 0;
     0, 1, 0, 0;
     0, 0, 1, η;
     0, 0, 0, 1]

/-- Joint axis codes 0..5 of the `ET`/`Link` structs: the generator `op`
installed for a joint (`rx`..`tz`) is selected by this code. -/
inductive Axis where
  | Rx | Ry | Rz | Tx | Ty | Tz
deriving DecidableEq

/-- Dispatch an axis code to its generator (the `op` function pointer). -/
noncomputable def axisM : Axis → ℝ → M4
  | .Rx => rxM
  | .Ry => ryM
  | .Rz => rzM
  | .Tx => txM
  | .Ty => tyM
  | .Tz => tzM

/-- The `ET` struct of the source: `isjoint`, `isflip`, `jindex`, the axis
code selecting `op`, and the fixed transform `T` used when static. -/
structure ET where
  isjoint : Bool
  isflip : Bool
  jindex : ℕ
  axis : Axis
  T : M4

/-- `_ET_T` (fknm.c / methods.cpp): a static element returns its fixed
transform `et->T`; a joint negates `eta` when `isflip` and dispatches to
the generator `et->op` named by the axis code. -/
noncomputable def ET_T (et : ET) (eta : ℝ) : M4 :=
  if et.isjoint = false then et.T
  else axisM et.axis (if et.isflip then -eta else eta)

/-- The ordered matrix product `T(E_1) · … · T(E_k)` of the chain's
elements, each evaluated at `q[jindex]`. -/
noncomputable def chainProd (q : ℕ → ℝ) (ets : List ET) : M4 :=
  (ets.map fun et => ET_T et (q et.jindex)).prod

/-- `_ETS_fkine` (methods.cpp): seed the accumulator with `base` (identity
when absent), right-multiply each element's transform evaluated at
`q[et->jindex]` in chain order, then right-multiply `tool` when present. -/
noncomputable def ETS_fkine (ets : List ET) (q : ℕ → ℝ) (base tool : Option M4) : M4 :=
  let current := ets.foldl (fun cur et => cur * ET_T et (q et.jindex)) (base.getD 1)
  match tool with
  | some t => current * t
  | none => current

/-- `_ETS_fkine` (fknm.c): same skeleton, but the accumulator update
`mult(current, ret, temp)` is commented out, so `temp` keeps the all-zero
contents `PyMem_RawCalloc` gave it and each iteration executes
`copy(temp, current)`, overwriting the accumulator with zeros. -/
noncomputable def ETS_fkine_c (ets : List ET) (q : ℕ → ℝ) (base tool : Option M4) : M4 :=
  let temp : M4 := 0
  let current := ets.foldl (fun _cur _et => temp) (base.getD 1)
  match tool with
  | some t => current * t
  | none => current

/-- `_inv` (fknm.c): the rigid inverse.  The 3×3 block is the transpose of
the input's 3×3 block, the translation column is
`inv[i][3] = -(m[0][i]·m[0][3] + m[1][i]·m[1][3] + m[2][i]·m[2][3])`,
i.e. `-Rᵗt`, and the bottom row is `(0,0,0,1)`. -/
def inv4 (m : M4) : M4 :=
  Matrix.of fun i j =>
    if (i : ℕ) = 3 then (if (j : ℕ) = 3 then 1 else 0)
    else if (j : ℕ) = 3 then -(m 0 i * m 0 3 + m 1 i * m 1 3 + m 2 i * m 2 3)
    else m j i

/-- The 3×3 rotation block of a 4×4 transform. -/
def rot (M : M4) : M3 :=
  Matrix.of fun i j => M (Fin.castSucc i) (Fin.castSucc j)

/-- The translation column of a 4×4 transform. -/
def transl (M : M4) : Fin 3 → ℝ :=
  fun i => M (Fin.castSucc i) 3

/-- A proper homogeneous rigid transform: orthonormal rotation block and
bottom row `(0,0,0,1)` (spec §3 Pose invariant; rigidity is a precondition
of `_inv`, never checked by the code). -/
def IsHTrans (M : M4) : Prop :=
  rot M * (rot M)ᵀ = 1 ∧ M 3 0 = 0 ∧ M 3 1 = 0 ∧ M 3 2 = 0 ∧ M 3 3 = 1

/-- `_cross` (fknm.c): the 3-vector cross product.  The stride argument `n`
only describes the column-strided layout of the operands inside the 6×n
Jacobian buffer; the value computed is the standard cross product. -/
def cross3 (a b : Fin 3 → ℝ) : Fin 3 → ℝ :=
  ![a 1 * b 2 - a 2 * b 1, a 2 * b 0 - a 0 * b 2, a 0 * b 1 - a 1 * b 0]

/-- Row index `r` (`r < 3`) of the linear (upper) half of a 6-row block. -/
def linIdx (r : Fin 3) : Fin 6 := ⟨r.1, by have := r.2; omega⟩

/-- Row index `r + 3` of the angular (lower) half of a 6-row block. -/
def angIdx (r : Fin 3) : Fin 6 := ⟨r.1 + 3, by have := r.2; omega⟩

/-- Rows 0–2 of column `i` of a 6×n Jacobian (`J + i` in the C layout). -/
def Jlin {n : ℕ} (J : Fin 6 → Fin n → ℝ) (i : Fin n) : Fin 3 → ℝ :=
  fun r => J (linIdx r) i

/-- Rows 3–5 of column `i` of a 6×n Jacobian (`J + i + 3n` in the C layout). -/
def Jang {n : ℕ} (J : Fin 6 → Fin n → ℝ) (i : Fin n) : Fin 3 → ℝ :=
  fun r => J (angIdx r) i

/-- `_ETS_hessian` (fknm.c / methods.cpp).  The loops write `H[j][r][i]`
(buffer offset `j·6n + r·n + i`) once each: for `i ≥ j` the direct entries
`H[j][0:3][i] = cross(J[3:6,j], J[0:3,i])` and
`H[j][3:6][i] = cross(J[3:6,j], J[3:6,i])`; for `i > j` the mirrored entries
`H[i][0:3][j] := H[j][0:3][i]` (i.e. `cross(J[3:6,j], J[0:3,i])`) and
`H[i][3:6][j] := 0`. -/
def hessian (n : ℕ) (J : Fin 6 → Fin n → ℝ) : Fin n → Fin 6 → Fin n → ℝ :=
  fun j r i =>
    if (j : ℕ) ≤ (i : ℕ) then
      if h : (r : ℕ) < 3 then cross3 (Jang J j) (Jlin J i) ⟨r, h⟩
      else cross3 (Jang J j) (Jang J i) ⟨(r : ℕ) - 3, by have := r.2; omega⟩
    else
      if h : (r : ℕ) < 3 then cross3 (Jang J i) (Jlin J j) ⟨r, h⟩
      else 0

/-- `_norm` (fknm.c) on a 3-vector: `sqrt(a₀² + a₁² + a₂²)`. -/
noncomputable def norm3 (a : Fin 3 → ℝ) : ℝ :=
  Real.sqrt (a 0 ^ 2 + a 1 ^ 2 + a 2 ^ 2)

/-- Two-argument arctangent, the C library `atan2(y, x)`.  Both the source
function and its specification use the same `atan2`, so only its type
matters for the comparison; this gives it the standard values. -/
noncomputable def atan2 (y x : ℝ) : ℝ :=
  if 0 < x then Real.arctan (y / x)
  else if x < 0 then
    (if 0 ≤ y then Real.arctan (y / x) + Real.pi else Real.arctan (y / x) - Real.pi)
  else
    (if 0 < y then Real.pi / 2 else if y < 0 then -(Real.pi / 2) else 0)

/-- The rotation-difference matrix `R = Tep[:3,:3] · Te[:3,:3]ᵗ` as the
`_angle_axis` triple loop computes it:
`R[i][j] = Σ_{k<3} Tep[i][k] · Te[j][k]`. -/
def aaR (Te Tep : M4) : M3 :=
  Matrix.of fun i j =>
    Tep (Fin.castSucc i) 0 * Te (Fin.castSucc j) 0 +
    Tep (Fin.castSucc i) 1 * Te (Fin.castSucc j) 1 +
    Tep (Fin.castSucc i) 2 * Te (Fin.castSucc j) 2

/-- The axis vector `li = (R[2,1]−R[1,2], R[0,2]−R[2,0], R[1,0]−R[0,1])`. -/
def aaLi (R : M3) : Fin 3 → ℝ :=
  ![R 2 1 - R 1 2, R 0 2 - R 2 0, R 1 0 - R 0 1]

/-- `_angle_axis` (fknm.c): rows 0–2 are `Tep[:3,3] − Te[:3,3]`; rows 3–5
come from `R = aaR`: when `‖li‖ < 1e-6`, zero if `trace(R) > 0`, else
`(π/2)·(diag(R)+1)` (`M_PI_2 * (R[0]+1)` etc.); otherwise
`atan2(‖li‖, trace(R)−1) · li / ‖li‖`. -/
noncomputable def angle_axis (Te Tep : M4) : Fin 6 → ℝ :=
  fun k =>
    if hk : (k : ℕ) < 3 then
      Tep ⟨k, by omega⟩ 3 - Te ⟨k, by omega⟩ 3
    else
      let R := aaR Te Tep
      let li := aaLi R
      let nrm := norm3 li
      let tr := R 0 0 + R 1 1 + R 2 2
      let d : Fin 3 := ⟨(k : ℕ) - 3, by have := k.2; omega⟩
      if nrm < 1e-6 then
        if 0 < tr then 0 else Real.pi / 2 * (R d d + 1)
      else atan2 nrm (tr - 1) * li d / nrm

/-- The pose error exactly as spec §4.7 words it: translation error
`target.translation − achieved.translation`; `R = target.rotation ·
achieved.rotationᵗ` as a matrix product; `li` as in `aaLi`; if `‖li‖ < 1e-6`
then zero when `trace(R) > 0` and `(π/2)·(diag(R)+1)` otherwise; else
`atan2(‖li‖, trace(R)−1) · li / ‖li‖`. -/
noncomputable def poseErrorSpec (achieved target : M4) : Fin 6 → ℝ :=
  fun k =>
    if hk : (k : ℕ) < 3 then
      transl target ⟨k, hk⟩ - transl achieved ⟨k, hk⟩
    else
      let R := rot target * (rot achieved)ᵀ
      let li := aaLi R
      let nrm := norm3 li
      let tr := Matrix.trace R
      let d : Fin 3 := ⟨(k : ℕ) - 3, by have := k.2; omega⟩
      if nrm < 1e-6 then
        if 0 < tr then 0 else Real.pi / 2 * (R d d + 1)
      else atan2 nrm (tr - 1) * li d / nrm

/-- `_r2q` (fknm.c): Shepperd-style rotation-to-quaternion extraction,
output order `(x, y, z, w) = (q[0], q[1], q[2], q[3])`, each component the
square root of a sum of squared entry combinations divided by 4, then
sign-corrected from the off-diagonal differences. -/
noncomputable def r2q (r : M4) : Fin 4 → ℝ :=
  let t12p := (r 0 1 + r 1 0) ^ 2
  let t13p := (r 0 2 + r 2 0) ^ 2
  let t23p := (r 1 2 + r 2 1) ^ 2
  let t12m := (r 0 1 - r 1 0) ^ 2
  let t13m := (r 0 2 - r 2 0) ^ 2
  let t23m := (r 1 2 - r 2 1) ^ 2
  let d1 := (r 0 0 + r 1 1 + r 2 2 + 1) ^ 2
  let d2 := (r 0 0 - r 1 1 - r 2 2 + 1) ^ 2
  let d3 := (-r 0 0 + r 1 1 - r 2 2 + 1) ^ 2
  let d4 := (-r 0 0 - r 1 1 + r 2 2 + 1) ^ 2
  let q3 := Real.sqrt (d1 + t23m + t13m + t12m) / 4
  let q0 := Real.sqrt (t23m + d2 + t12p + t13p) / 4
  let q1 := Real.sqrt (t13m + t12p + d3 + t23p) / 4
  let q2 := Real.sqrt (t12m + t13p + t23p + d4) / 4
  ![if r 2 1 < r 1 2 then -q0 else q0,
    if r 0 2 < r 2 0 then -q1 else q1,
    if r 1 0 < r 0 1 then -q2 else q2,
    q3]

/-- The `Link` struct fields `fkine_all` consumes: joint data as in `ET`,
the fixed part `A`, the parent back-reference (modelled as an index into
the topologically ordered link list), and the shape base offsets
`shape_base[]`. -/
structure Link where
  isjoint : Bool
  isflip : Bool
  jindex : ℕ
  axis : Axis
  A : M4
  parent : Option ℕ
  shapes : List M4

/-- `A(link, ret, eta)` (fknm.c): a static link returns its fixed `A`; a
joint negates `eta` when flipped, evaluates the generator `op` into `v`,
and returns `A · v`. -/
noncomputable def linkA (l : Link) (eta : ℝ) : M4 :=
  if l.isjoint = false then l.A
  else l.A * axisM l.axis (if l.isflip then -eta else eta)

/-- One iteration of the `fkine_all` loop: the link's world pose is
`parent->fk · A(link, q[jindex])` when a parent exists (its `fk` was
computed earlier in the pass, the caller guaranteeing parent-before-child
order), else `base · A(link, q[jindex])`. -/
noncomputable def fkAllStep (q : ℕ → ℝ) (base : M4) (fks : List M4) (l : Link) : M4 :=
  let lA := linkA l (q l.jindex)
  match l.parent with
  | some p => fks.getD p 0 * lA
  | none => base * lA

/-- `fkine_all` (fknm.c): walk the links in list order, record each link's
world pose `fk`, and for each attached shape cache
`shape_wT[i] := link->fk`, `shape_sT[i] := link->fk · shape_base[i]`, and
`shape_sq[i] := _r2q(shape_sT[i])`. -/
noncomputable def fkineAll (links : List Link) (q : ℕ → ℝ) (base : M4) :
    List (M4 × List (M4 × M4 × (Fin 4 → ℝ))) :=
  links.foldl
    (fun acc l =>
      let fk := fkAllStep q base (acc.map Prod.fst) l
      acc ++ [(fk, l.shapes.map fun sb => (fk, fk * sb, r2q (fk * sb)))])
    []

/-- A Jacobian column: rows 0–2 (linear) and rows 3–5 (angular) of the
6×n output buffer at one column index. -/
abbrev Col := (Fin 3 → ℝ) × (Fin 3 → ℝ)

/-- The column `_ETS_jacob0` writes for a joint with accumulator `U` and
`D = invU · T`: per axis code, a combination of `U`'s rotation columns
scaled by `D`'s translation entries for the linear part, and `U`'s rotation
column for the angular part (zero angular part for prismatic axes). -/
def j0Column (ax : Axis) (U D : M4) : Col :=
  match ax with
  | .Rx => (fun r => U (Fin.castSucc r) 2 * D 1 3 - U (Fin.castSucc r) 1 * D 2 3,
            fun r => U (Fin.castSucc r) 0)
  | .Ry => (fun r => U (Fin.castSucc r) 0 * D 2 3 - U (Fin.castSucc r) 2 * D 0 3,
            fun r => U (Fin.castSucc r) 1)
  | .Rz => (fun r => U (Fin.castSucc r) 1 * D 0 3 - U (Fin.castSucc r) 0 * D 1 3,
            fun r => U (Fin.castSucc r) 2)
  | .Tx => (fun r => U (Fin.castSucc r) 0, fun _ => 0)
  | .Ty => (fun r => U (Fin.castSucc r) 1, fun _ => 0)
  | .Tz => (fun r => U (Fin.castSucc r) 2, fun _ => 0)

/-- The forward sweep of `_ETS_jacob0` (methods.cpp / fknm.c): fold each
element into `U`; at a joint, first fold the element, then fold `tool` when
the element is the last of the chain (`i == m-1`), compute
`D = _inv(U) · T`, and emit the axis column; a static element only updates
`U`.  Columns are listed in chain-traversal order, the order in which `j`
is incremented. -/
noncomputable def j0cols (q : ℕ → ℝ) (tool : Option M4) (T : M4) :
    List ET → M4 → List Col
  | [], _U => []
  | et :: rest, U =>
    if et.isjoint then
      let U1 := U * ET_T et (q et.jindex)
      let U2 := if rest.isEmpty then
          (match tool with | some t => U1 * t | none => U1)
        else U1
      j0Column et.axis U2 (inv4 U2 * T) :: j0cols q tool T rest U2
    else
      j0cols q tool T rest (U * ET_T et (q et.jindex))

/-- `_ETS_jacob0`: precompute `T = _ETS_fkine(ets, q, NULL, tool)`
(methods.cpp calls its own, product-computing `_ETS_fkine`), then run the
forward sweep seeded with the identity. -/
noncomputable def jacob0 (ets : List ET) (q : ℕ → ℝ) (tool : Option M4) : List Col :=
  j0cols q tool (ETS_fkine ets q none tool) ets 1

/-- The column `_ETS_jacobe` writes for a joint with accumulator `U`: per
axis code, a combination of `U`'s rotation rows scaled by `U`'s own
translation entries for the linear part, and `U`'s rotation row for the
angular part (zero for prismatic axes). -/
def jeColumn (ax : Axis) (U : M4) : Col :=
  match ax with
  | .Rx => (fun c => U 2 (Fin.castSucc c) * U 1 3 - U 1 (Fin.castSucc c) * U 2 3,
            fun c => U 0 (Fin.castSucc c))
  | .Ry => (fun c => U 0 (Fin.castSucc c) * U 2 3 - U 2 (Fin.castSucc c) * U 0 3,
            fun c => U 1 (Fin.castSucc c))
  | .Rz => (fun c => U 1 (Fin.castSucc c) * U 0 3 - U 0 (Fin.castSucc c) * U 1 3,
            fun c => U 2 (Fin.castSucc c))
  | .Tx => (fun c => U 0 (Fin.castSucc c), fun _ => 0)
  | .Ty => (fun c => U 1 (Fin.castSucc c), fun _ => 0)
  | .Tz => (fun c => U 2 (Fin.castSucc c), fun _ => 0)

/-- The reverse sweep of `_ETS_jacobe`: the chain is walked from the tool
end backwards (the column for an element is computed from the accumulated
product of all LATER elements times the tool seed, then the element is
left-multiplied into `U`).  Returns the columns in chain order (the code
fills `j = n-1` down to `0`) together with the final accumulator. -/
noncomputable def jecols (q : ℕ → ℝ) : List ET → M4 → List Col × M4
  | [], U => ([], U)
  | et :: rest, U =>
    let res := jecols q rest U
    if et.isjoint then
      (jeColumn et.axis res.2 :: res.1, ET_T et (q et.jindex) * res.2)
    else
      (res.1, ET_T et (q et.jindex) * res.2)

/-- `_ETS_jacobe` (methods.cpp / fknm.c): seed `U` with `tool` when present
(identity otherwise) and run the reverse sweep. -/
noncomputable def jacobe (ets : List ET) (q : ℕ → ℝ) (tool : Option M4) : List Col :=
  (jecols q ets (tool.getD 1)).1

/-- Apply the rotation block of `T` to a 3-vector. -/
def rotApp (T : M4) (v : Fin 3 → ℝ) : Fin 3 → ℝ :=
  fun i => T (Fin.castSucc i) 0 * v 0 + T (Fin.castSucc i) 1 * v 1 +
    T (Fin.castSucc i) 2 * v 2

/-- The rotation-only (block-diagonal `diag(R, R)`) velocity transform of a
pose applied to a Jacobian column. -/
def blockRotCol (T : M4) (c : Col) : Col :=
  (rotApp T c.1, rotApp T c.2)

/-- Modelled from the claim's words: the standard 6×6 twist adjoint
`Ad(T) = [[R, skew(t)·R], [0, R]]` of a rigid transform `T = (R, t)`,
applied to a Jacobian column `(v, ω)`: `(R·v + t × (R·ω), R·ω)`.  This is
not a source function; it exists to compare the claimed relation with the
one the code satisfies. -/
def adCol (T : M4) (c : Col) : Col :=
  (fun i => rotApp T c.1 i + cross3 (transl T) (rotApp T c.2) i, rotApp T c.2)

/-- The state the `_ETS_IK` loop reads and writes: the joint configuration
`q`, the achieved pose buffer `Te`, the error vector `e`, the scalar cost
`E`, and the guard variables `arrived` and `iter`. -/
structure IKState where
  q : ℕ → ℝ
  Te : M4
  e : Fin 6 → ℝ
  E : ℝ
  arrived : ℤ
  iter : ℤ

/-- The loop body of `_ETS_IK` in fknm.c (lines 1334–1345): recompute `Te`
by `_ETS_fkine(ets, q, NULL, NULL, Te)` (the fknm.c fkine), recompute
`e = _angle_axis(Te, Tep)` and `E = 0.5·Σ e²`.  Neither `q` nor `arrived`
nor `iter` is written. -/
noncomputable def IKstep_c (ets : List ET) (Tep : M4) (s : IKState) : IKState :=
  let Te := ETS_fkine_c ets s.q none none
  let e := angle_axis Te Tep
  { s with
    Te := Te
    e := e
    E := 0.5 * (e 0 * e 0 + e 1 * e 1 + e 2 * e 2 + e 3 * e 3 + e 4 * e 4 + e 5 * e 5) }

/-- The loop body of `_ETS_IK` in methods.cpp (lines 67–78): the fkine call
and the cost computation are commented out, so the body only recomputes
`e = _angle_axis(Te, Tep)`; `q`, `Te`, `E`, `arrived` and `iter` are all
left untouched. -/
noncomputable def IKstep_cpp (Tep : M4) (s : IKState) : IKState :=
  { s with e := angle_axis s.Te Tep }

/-- The guard of the `while` loop: `arrived == 0 && iter < 500`. -/
def IKguard (s : IKState) : Prop :=
  s.arrived = 0 ∧ s.iter < 500

/-- Iterate a loop body `k` times. -/
def iterStep (f : IKState → IKState) : ℕ → IKState → IKState
  | 0, s => s
  | k + 1, s => iterStep f k (f s)

/-- The all-zero configuration vector, used as concrete input. -/
def qz : ℕ → ℝ := fun _ => 0

/-- A concrete static element whose fixed transform is a unit X
translation. -/
def etStatic : ET :=
  { isjoint := false, isflip := false, jindex := 0, axis := Axis.Rx, T := txM 1 }

/-- A concrete revolute joint about Z at joint index 0. -/
def etJz : ET :=
  { isjoint := true, isflip := false, jindex := 0, axis := Axis.Rz, T := 1 }

/-- A concrete two-element chain: a Z joint followed by a static unit X
translation. -/
def ceEts : List ET := [etJz, etStatic]

/-- A concrete root link (no parent) with no shapes. -/
def lkRoot : Link :=
  { isjoint := true, isflip := false, jindex := 0, axis := Axis.Rz, A := 1,
    parent := none, shapes := [] }

/-- A concrete child link of `lkRoot` carrying one shape offset. -/
def lkChild : Link :=
  { isjoint := false, isflip := false, jindex := 0, axis := Axis.Rx, A := txM 1,
    parent := some 0, shapes := [tyM 2] }

/-- A concrete 6×2 Jacobian used as witness input. -/
def Jc : Fin 6 → Fin 2 → ℝ := fun r c => (r : ℝ) + 2 * (c : ℝ) + 1

/-- A concrete initial IK loop state: `arrived = 0`, `iter = 0`, scratch
buffers zeroed as `PyMem_RawCalloc` leaves them. -/
def ikInit : IKState :=
  { q := qz, Te := 0, e := fun _ => 0, E := 0, arrived := 0, iter := 0 }

/- ## Theorems -/

/-- Folding right-multiplication over a chain from seed `a` is `a` times
the chain product. -/
lemma foldl_mul_eq (q : ℕ → ℝ) (ets : List ET) (a : M4) :
    ets.foldl (fun cur et => cur * ET_T et (q et.jindex)) a = a * chainProd q ets := by
  induction ets generalizing a with
  | nil => simp [chainProd]
  | cons et rest ih =>
    simp only [List.foldl_cons, chainProd, List.map_cons, List.prod_cons]
    rw [ih, mul_assoc]
    rfl

/-- The methods.cpp forward kinematics equals
`base · T(E_1) · … · T(E_k) · tool` with identity defaults. -/
lemma fkine_eq_prod (ets : List ET) (q : ℕ → ℝ) (base tool : Option M4) :
    ETS_fkine ets q base tool = base.getD 1 * chainProd q ets * tool.getD 1 := by
  unfold ETS_fkine
  rw [foldl_mul_eq]
  cases tool <;> simp

/-- A static element's evaluation ignores the joint value. -/
lemma ET_T_static (et : ET) (h : et.isjoint = false) (x y : ℝ) :
    ET_T et x = ET_T et y := by
  simp [ET_T, h]

/-- C1: `forwardKinematics` (methods.cpp `_ETS_fkine`) returns
`base · T(E_1) · T(E_2) · … · T(E_k) · tool`, base and tool defaulting to
the identity, each `T(E_i)` being the element evaluated at `q[jointIndex]`,
the joint value being ignored for Static elements. -/
theorem C1_fkine_product (ets : List ET) (q : ℕ → ℝ) (base tool : Option M4) :
    ETS_fkine ets q base tool =
      base.getD 1 * (ets.map fun et => ET_T et (q et.jindex)).prod * tool.getD 1 ∧
    ∀ et : ET, et.isjoint = false → ∀ x y : ℝ, ET_T et x = ET_T et y := by
  refine ⟨fkine_eq_prod ets q base tool, ?_⟩
  intro et h x y
  exact ET_T_static et h x y

/-- Witness for C1 at the concrete chain `[etJz, etStatic]` with zero
configuration, no base and no tool, and at the static element. -/
theorem C1_fkine_product_witness :
    ETS_fkine ceEts qz none none =
      (Option.getD none 1 : M4) *
        (ceEts.map fun et => ET_T et (qz et.jindex)).prod * Option.getD none 1 ∧
    ET_T etStatic 0 = ET_T etStatic 1 := by
  refine ⟨(C1_fkine_product ceEts qz none none).1, ?_⟩
  exact (C1_fkine_product ceEts qz none none).2 etStatic rfl 0 1

/-- Folding the constant zero scratch buffer over a nonempty chain yields
the zero matrix. -/
lemma foldl_zero (ets : List ET) (a : M4) (h : ets ≠ []) :
    ets.foldl (fun _cur _et => (0 : M4)) a = 0 := by
  induction ets generalizing a with
  | nil => exact absurd rfl h
  | cons et rest ih =>
    cases rest with
    | nil => simp
    | cons f fs => simpa using ih 0 (by simp)

/-- C8: with the accumulator multiplication commented out, the fknm.c
`_ETS_fkine` writes the all-zero matrix for every chain with at least one
element, regardless of `q`, `base` and `tool`. -/
theorem C8_fkine_c_zero (ets : List ET) (q : ℕ → ℝ) (base tool : Option M4)
    (h : ets ≠ []) : ETS_fkine_c ets q base tool = 0 := by
  simp only [ETS_fkine_c]
  rw [foldl_zero ets _ h]
  cases tool <;> simp

/-- Witness for C8 at the concrete nonempty chain `[etJz, etStatic]`. -/
theorem C8_fkine_c_zero_witness :
    ETS_fkine_c ceEts qz none none = 0 :=
  C8_fkine_c_zero ceEts qz none none (by simp [ceEts])

/-- A loop body leaving `arrived` and `iter` untouched keeps the guard
true after any number of iterations. -/
lemma iter_guard (f : IKState → IKState)
    (hf : ∀ s, (f s).arrived = s.arrived ∧ (f s).iter = s.iter) :
    ∀ (k : ℕ) (s : IKState), IKguard s → IKguard (iterStep f k s) := by
  intro k
  induction k with
  | zero => intro s hs; exact hs
  | succ k ih =>
    intro s hs
    exact ih (f s) ⟨(hf s).1.trans hs.1, (hf s).2 ▸ hs.2⟩

/-- C2: neither `_ETS_IK` loop body ever writes `q`, `arrived` or `iter`
(the methods.cpp body also never writes `Te`, its fkine call being
commented out; the fknm.c body rewrites `Te` only with a value that does
not depend on the loop state), so from any state satisfying the guard
`arrived == 0 && iter < 500` — in particular the initial
`arrived = 0, iter = 0` — the guard still holds after every iteration and
the loop never exits. -/
theorem C2_IK_nonterminating (ets : List ET) (Tep : M4) :
    (∀ s : IKState, (IKstep_c ets Tep s).q = s.q ∧
      (IKstep_c ets Tep s).arrived = s.arrived ∧
      (IKstep_c ets Tep s).iter = s.iter) ∧
    (∀ s : IKState, (IKstep_cpp Tep s).q = s.q ∧
      (IKstep_cpp Tep s).Te = s.Te ∧
      (IKstep_cpp Tep s).arrived = s.arrived ∧
      (IKstep_cpp Tep s).iter = s.iter) ∧
    (∀ s : IKState, IKguard s →
      ∀ k : ℕ, IKguard (iterStep (IKstep_c ets Tep) k s)) ∧
    (∀ s : IKState, IKguard s →
      ∀ k : ℕ, IKguard (iterStep (IKstep_cpp Tep) k s)) := by
  refine ⟨fun s => ⟨rfl, rfl, rfl⟩, fun s => ⟨rfl, rfl, rfl, rfl⟩, ?_, ?_⟩
  · intro s hs k
    exact iter_guard (IKstep_c ets Tep) (fun s => ⟨rfl, rfl⟩) k s hs
  · intro s hs k
    exact iter_guard (IKstep_cpp Tep) (fun s => ⟨rfl, rfl⟩) k s hs

/-- Witness for C2: from the concrete zeroed initial state the guard still
holds after 7 iterations of either body on a concrete chain and target. -/
theorem C2_IK_nonterminating_witness :
    IKguard (iterStep (IKstep_c ceEts 1) 7 ikInit) ∧
    IKguard (iterStep (IKstep_cpp 1) 7 ikInit) :=
  ⟨(C2_IK_nonterminating ceEts 1).2.2.1 ikInit ⟨rfl, by decide⟩ 7,
   (C2_IK_nonterminating ceEts 1).2.2.2 ikInit ⟨rfl, by decide⟩ 7⟩

/-- Direct linear-block entries of the Hessian, `i ≥ j`. -/
lemma hessian_lin_le {n : ℕ} (J : Fin 6 → Fin n → ℝ) {i j : Fin n}
    (h : (j : ℕ) ≤ (i : ℕ)) (r : Fin 3) :
    hessian n J j (linIdx r) i = cross3 (Jang J j) (Jlin J i) r := by
  unfold hessian
  rw [if_pos h, dif_pos (show ((linIdx r : Fin 6) : ℕ) < 3 from r.2)]
  rfl

/-- Direct angular-block entries of the Hessian, `i ≥ j`. -/
lemma hessian_ang_le {n : ℕ} (J : Fin 6 → Fin n → ℝ) {i j : Fin n}
    (h : (j : ℕ) ≤ (i : ℕ)) (r : Fin 3) :
    hessian n J j (angIdx r) i = cross3 (Jang J j) (Jang J i) r := by
  unfold hessian
  rw [if_pos h, dif_neg (show ¬ ((angIdx r : Fin 6) : ℕ) < 3 by
    simp [angIdx])]
  rfl

/-- Mirrored linear-block entries of the Hessian, `i > j`. -/
lemma hessian_lin_gt {n : ℕ} (J : Fin 6 → Fin n → ℝ) {i j : Fin n}
    (h : (j : ℕ) < (i : ℕ)) (r : Fin 3) :
    hessian n J i (linIdx r) j = cross3 (Jang J j) (Jlin J i) r := by
  unfold hessian
  rw [if_neg (by omega), dif_pos (show ((linIdx r : Fin 6) : ℕ) < 3 from r.2)]
  rfl

/-- Mirrored angular-block entries of the Hessian are zero, `i > j`. -/
lemma hessian_ang_gt {n : ℕ} (J : Fin 6 → Fin n → ℝ) {i j : Fin n}
    (h : (j : ℕ) < (i : ℕ)) (r : Fin 3) :
    hessian n J i (angIdx r) j = 0 := by
  unfold hessian
  rw [if_neg (by omega), dif_neg (show ¬ ((angIdx r : Fin 6) : ℕ) < 3 by
    simp [angIdx])]

/-- The cross product of a vector with itself vanishes. -/
lemma cross3_self (a : Fin 3 → ℝ) (r : Fin 3) : cross3 a a r = 0 := by
  fin_cases r <;> simp [cross3] <;> ring

/-- C4: for `i ≥ j` the direct blocks are
`H[j][0:3,i] = cross(J[3:6,j], J[0:3,i])` and
`H[j][3:6,i] = cross(J[3:6,j], J[3:6,i])`; for `i > j` the mirrored
entries satisfy `H[i][0:3,j] = H[j][0:3,i]` while the mirrored angular
block `H[i][3:6,j]` is zero. -/
theorem C4_hessian_blocks {n : ℕ} (J : Fin 6 → Fin n → ℝ) (i j : Fin n) :
    ((j : ℕ) ≤ (i : ℕ) →
      (∀ r : Fin 3, hessian n J j (linIdx r) i = cross3 (Jang J j) (Jlin J i) r) ∧
      (∀ r : Fin 3, hessian n J j (angIdx r) i = cross3 (Jang J j) (Jang J i) r)) ∧
    ((j : ℕ) < (i : ℕ) →
      (∀ r : Fin 3, hessian n J i (linIdx r) j = hessian n J j (linIdx r) i) ∧
      (∀ r : Fin 3, hessian n J i (angIdx r) j = 0)) := by
  refine ⟨fun h => ⟨hessian_lin_le J h, hessian_ang_le J h⟩, fun h => ⟨?_, ?_⟩⟩
  · intro r
    rw [hessian_lin_gt J h r, hessian_lin_le J (le_of_lt h) r]
  · intro r
    exact hessian_ang_gt J h r

/-- Witness for C4 at the concrete 6×2 Jacobian `Jc` with `j = 0`, `i = 1`. -/
theorem C4_hessian_blocks_witness :
    (∀ r : Fin 3, hessian 2 Jc 0 (linIdx r) 1 = cross3 (Jang Jc 0) (Jlin Jc 1) r) ∧
    (∀ r : Fin 3, hessian 2 Jc 0 (angIdx r) 1 = cross3 (Jang Jc 0) (Jang Jc 1) r) ∧
    (∀ r : Fin 3, hessian 2 Jc 1 (linIdx r) 0 = hessian 2 Jc 0 (linIdx r) 1) ∧
    (∀ r : Fin 3, hessian 2 Jc 1 (angIdx r) 0 = 0) := by
  refine ⟨((C4_hessian_blocks Jc 1 0).1 (by decide)).1,
          ((C4_hessian_blocks Jc 1 0).1 (by decide)).2,
          ((C4_hessian_blocks Jc 1 0).2 (by decide)).1,
          ((C4_hessian_blocks Jc 1 0).2 (by decide)).2⟩

/-- C10: the diagonal angular block of the Hessian is the cross product of
a column's angular part with itself, which vanishes. -/
theorem C10_hessian_diag_ang_zero {n : ℕ} (J : Fin 6 → Fin n → ℝ)
    (j : Fin n) (r : Fin 3) :
    hessian n J j (angIdx r) j = cross3 (Jang J j) (Jang J j) r ∧
    cross3 (Jang J j) (Jang J j) r = 0 :=
  ⟨hessian_ang_le J (le_refl _) r, cross3_self (Jang J j) r⟩

/-- The `_angle_axis` entry-wise rotation difference equals the matrix
product `target.rotation · achieved.rotationᵗ`. -/
lemma aaR_eq_mul (Te Tep : M4) : aaR Te Tep = rot Tep * (rot Te)ᵀ := by
  ext i j
  simp [aaR, rot, Matrix.mul_apply, Fin.sum_univ_three, Matrix.transpose_apply,
    show Fin.castSucc (0 : Fin 3) = (0 : Fin 4) from rfl,
    show Fin.castSucc (1 : Fin 3) = (1 : Fin 4) from rfl,
    show Fin.castSucc (2 : Fin 3) = (2 : Fin 4) from rfl]

/-- The trace of a 3×3 matrix written out. -/
lemma trace3_eq (R : M3) : Matrix.trace R = R 0 0 + R 1 1 + R 2 2 := by
  simp [Matrix.trace, Fin.sum_univ_three]

/-- C5: `_angle_axis` computes exactly the pose error the spec describes —
translation rows `target.translation − achieved.translation`, rotation rows
from `R = target.rotation · achieved.rotationᵗ` with the `‖li‖ < 1e-6`
near-diagonal branches and the `atan2(‖li‖, trace(R)−1) · li / ‖li‖`
general branch. -/
theorem C5_pose_error (Te Tep : M4) (k : Fin 6) :
    angle_axis Te Tep k = poseErrorSpec Te Tep k := by
  unfold angle_axis poseErrorSpec
  by_cases hk : (k : ℕ) < 3
  · rw [dif_pos hk, dif_pos hk]
    rfl
  · simp only [dif_neg hk,
      show rot Tep * (rot Te)ᵀ = aaR Te Tep from (aaR_eq_mul Te Tep).symm,
      trace3_eq]

/-- C6: propagation computes a root's world pose as `base · local` and a
child's as `parent.fk · local`, so a two-link chain yields child pose
`base · rootLocal · childLocal`; every shape cache attached to a link
becomes `(link.fk, link.fk · shapeOffset, r2q(link.fk · shapeOffset))`. -/
theorem C6_fkine_all_two_link (q : ℕ → ℝ) (base : M4) (root child : Link)
    (hr : root.parent = none) (hc : child.parent = some 0) :
    fkineAll [root, child] q base =
      [(base * linkA root (q root.jindex),
        root.shapes.map fun sb =>
          (base * linkA root (q root.jindex),
           base * linkA root (q root.jindex) * sb,
           r2q (base * linkA root (q root.jindex) * sb))),
       (base * linkA root (q root.jindex) * linkA child (q child.jindex),
        child.shapes.map fun sb =>
          (base * linkA root (q root.jindex) * linkA child (q child.jindex),
           base * linkA root (q root.jindex) * linkA child (q child.jindex) * sb,
           r2q (base * linkA root (q root.jindex) * linkA child (q child.jindex) * sb)))] ∧
    (∀ (fks : List M4) (l : Link),
      (l.parent = none → fkAllStep q base fks l = base * linkA l (q l.jindex)) ∧
      (∀ p : ℕ, l.parent = some p →
        fkAllStep q base fks l = fks.getD p 0 * linkA l (q l.jindex))) := by
  constructor
  · simp [fkineAll, fkAllStep, hr, hc]
  · intro fks l
    constructor
    · intro hn
      simp [fkAllStep, hn]
    · intro p hp
      simp [fkAllStep, hp]

/-- Witness for C6 at the concrete two-link tree `lkRoot`/`lkChild` (one
shape on the child) with identity base and zero configuration. -/
theorem C6_fkine_all_two_link_witness :
    fkineAll [lkRoot, lkChild] qz 1 =
      [(1 * linkA lkRoot (qz lkRoot.jindex),
        lkRoot.shapes.map fun sb =>
          (1 * linkA lkRoot (qz lkRoot.jindex),
           1 * linkA lkRoot (qz lkRoot.jindex) * sb,
           r2q (1 * linkA lkRoot (qz lkRoot.jindex) * sb))),
       (1 * linkA lkRoot (qz lkRoot.jindex) * linkA lkChild (qz lkChild.jindex),
        lkChild.shapes.map fun sb =>
          (1 * linkA lkRoot (qz lkRoot.jindex) * linkA lkChild (qz lkChild.jindex),
           1 * linkA lkRoot (qz lkRoot.jindex) * linkA lkChild (qz lkChild.jindex) * sb,
           r2q (1 * linkA lkRoot (qz lkRoot.jindex) *
             linkA lkChild (qz lkChild.jindex) * sb)))] :=
  (C6_fkine_all_two_link qz 1 lkRoot lkChild rfl rfl).1

/-- `Fin.castSucc` at the literal 0 of `Fin 3`. -/
lemma finCS0 : Fin.castSucc (0 : Fin 3) = (0 : Fin 4) := rfl

/-- `Fin.castSucc` at the literal 1 of `Fin 3`. -/
lemma finCS1 : Fin.castSucc (1 : Fin 3) = (1 : Fin 4) := rfl

/-- `Fin.castSucc` at the literal 2 of `Fin 3`. -/
lemma finCS2 : Fin.castSucc (2 : Fin 3) = (2 : Fin 4) := rfl

/-- The rotation block of the identity transform. -/
lemma rot_one : rot (1 : M4) = 1 := by
  ext i j
  simp [rot, Matrix.one_apply, Fin.castSucc_inj]

/-- The identity is a proper homogeneous rigid transform. -/
lemma isH_one : IsHTrans (1 : M4) := by
  refine ⟨?_, ?_, ?_, ?_, ?_⟩ <;> simp [rot_one, Matrix.one_apply]

/-- The rotation block of a product, given a homogeneous bottom row on the
right factor. -/
lemma rot_mul (A B : M4) (hB0 : B 3 0 = 0) (hB1 : B 3 1 = 0) (hB2 : B 3 2 = 0) :
    rot (A * B) = rot A * rot B := by
  ext i j
  fin_cases j <;>
    simp [rot, Matrix.mul_apply, Fin.sum_univ_four, Fin.sum_univ_three,
      finCS0, finCS1, finCS2, hB0, hB1, hB2]

/-- Proper homogeneous rigid transforms are closed under composition. -/
lemma isH_mul {A B : M4} (hA : IsHTrans A) (hB : IsHTrans B) :
    IsHTrans (A * B) := by
  obtain ⟨hAR, hA0, hA1, hA2, hA3⟩ := hA
  obtain ⟨hBR, hB0, hB1, hB2, hB3⟩ := hB
  refine ⟨?_, ?_, ?_, ?_, ?_⟩
  · rw [rot_mul A B hB0 hB1 hB2, Matrix.transpose_mul, mul_assoc,
      ← mul_assoc (rot B), hBR, one_mul, hAR]
  · simp [Matrix.mul_apply, Fin.sum_univ_four, hA0, hA1, hA2, hA3, hB0]
  · simp [Matrix.mul_apply, Fin.sum_univ_four, hA0, hA1, hA2, hA3, hB1]
  · simp [Matrix.mul_apply, Fin.sum_univ_four, hA0, hA1, hA2, hA3, hB2]
  · simp [Matrix.mul_apply, Fin.sum_univ_four, hA0, hA1, hA2, hA3, hB3]

/-- Coercion of the `Fin 4` literal 0 to ℕ. -/
lemma fv0 : ((0 : Fin 4) : ℕ) = 0 := rfl

/-- Coercion of the `Fin 4` literal 1 to ℕ. -/
lemma fv1 : ((1 : Fin 4) : ℕ) = 1 := rfl

/-- Coercion of the `Fin 4` literal 2 to ℕ. -/
lemma fv2 : ((2 : Fin 4) : ℕ) = 2 := rfl

/-- Coercion of the `Fin 4` literal 3 to ℕ. -/
lemma fv3 : ((3 : Fin 4) : ℕ) = 3 := rfl

/-- Each generator produces a proper homogeneous rigid transform. -/
lemma axisM_isH (ax : Axis) (η : ℝ) : IsHTrans (axisM ax η) := by
  have hs := Real.sin_sq_add_cos_sq η
  cases ax <;>
    exact ⟨by
        ext i j
        fin_cases i <;> fin_cases j <;>
          simp [axisM, rxM, ryM, rzM, txM, tyM, tzM, rot, Matrix.mul_apply,
            Fin.sum_univ_three, Matrix.transpose_apply, Matrix.one_apply,
            finCS0, finCS1, finCS2, Matrix.vecHead, Matrix.vecTail] <;>
          first
            | ring1
            | linear_combination hs,
      by simp [axisM, rxM, ryM, rzM, txM, tyM, tzM, Matrix.vecHead, Matrix.vecTail],
      by simp [axisM, rxM, ryM, rzM, txM, tyM, tzM, Matrix.vecHead, Matrix.vecTail],
      by simp [axisM, rxM, ryM, rzM, txM, tyM, tzM, Matrix.vecHead, Matrix.vecTail],
      by simp [axisM, rxM, ryM, rzM, txM, tyM, tzM, Matrix.vecHead, Matrix.vecTail]⟩

/-- An evaluated element is a proper homogeneous rigid transform whenever
its static transform is (joints evaluate to generator transforms). -/
lemma ET_T_isH (et : ET) (h : et.isjoint = false → IsHTrans et.T) (eta : ℝ) :
    IsHTrans (ET_T et eta) := by
  unfold ET_T
  cases hj : et.isjoint with
  | false => simpa [hj] using h hj
  | true => simpa [hj] using axisM_isH et.axis (if et.isflip then -eta else eta)

/-- A chain product of rigid element evaluations is rigid. -/
lemma chainProd_isH (q : ℕ → ℝ) (ets : List ET)
    (h : ∀ et ∈ ets, et.isjoint = false → IsHTrans et.T) :
    IsHTrans (chainProd q ets) := by
  induction ets with
  | nil => simpa [chainProd] using isH_one
  | cons et rest ih =>
    have h1 : IsHTrans (ET_T et (q et.jindex)) :=
      ET_T_isH et (h et (by simp)) _
    have h2 := ih (fun e he => h e (by simp [he]))
    simpa [chainProd] using isH_mul h1 h2

/-- Orthonormal rows give orthonormal columns. -/
lemma isH_colOrtho {M : M4} (hM : IsHTrans M) : (rot M)ᵀ * rot M = 1 :=
  Matrix.mul_eq_one_comm.mp hM.1

/-- The rigid inverse composed with a rigid transform is the identity. -/
lemma inv4_mul_self {M : M4} (hM : IsHTrans M) : inv4 M * M = 1 := by
  obtain ⟨hR, h30, h31, h32, h33⟩ := hM
  have hco := Matrix.mul_eq_one_comm.mp hR
  have hent : ∀ a b : Fin 3, ((rot M)ᵀ * rot M) a b = (1 : M3) a b :=
    fun a b => by rw [hco]
  have hc00 : M 0 0 * M 0 0 + M 1 0 * M 1 0 + M 2 0 * M 2 0 = 1 := by
    simpa [Matrix.mul_apply, Fin.sum_univ_three, rot, Matrix.transpose_apply,
      Matrix.one_apply, finCS0, finCS1, finCS2] using hent 0 0
  have hc11 : M 0 1 * M 0 1 + M 1 1 * M 1 1 + M 2 1 * M 2 1 = 1 := by
    simpa [Matrix.mul_apply, Fin.sum_univ_three, rot, Matrix.transpose_apply,
      Matrix.one_apply, finCS0, finCS1, finCS2] using hent 1 1
  have hc22 : M 0 2 * M 0 2 + M 1 2 * M 1 2 + M 2 2 * M 2 2 = 1 := by
    simpa [Matrix.mul_apply, Fin.sum_univ_three, rot, Matrix.transpose_apply,
      Matrix.one_apply, finCS0, finCS1, finCS2] using hent 2 2
  have hc01 : M 0 0 * M 0 1 + M 1 0 * M 1 1 + M 2 0 * M 2 1 = 0 := by
    simpa [Matrix.mul_apply, Fin.sum_univ_three, rot, Matrix.transpose_apply,
      Matrix.one_apply, finCS0, finCS1, finCS2] using hent 0 1
  have hc02 : M 0 0 * M 0 2 + M 1 0 * M 1 2 + M 2 0 * M 2 2 = 0 := by
    simpa [Matrix.mul_apply, Fin.sum_univ_three, rot, Matrix.transpose_apply,
      Matrix.one_apply, finCS0, finCS1, finCS2] using hent 0 2
  have hc12 : M 0 1 * M 0 2 + M 1 1 * M 1 2 + M 2 1 * M 2 2 = 0 := by
    simpa [Matrix.mul_apply, Fin.sum_univ_three, rot, Matrix.transpose_apply,
      Matrix.one_apply, finCS0, finCS1, finCS2] using hent 1 2
  ext i j
  fin_cases i <;> fin_cases j <;>
    simp [inv4, Matrix.mul_apply, Fin.sum_univ_four, Matrix.one_apply,
      fv0, fv1, fv2, fv3, h30, h31, h32, h33] <;>
    first
      | ring1
      | linear_combination hc00
      | linear_combination hc11
      | linear_combination hc22
      | linear_combination hc01
      | linear_combination hc02
      | linear_combination hc12

/-- C7: `_inv` transposes the rotation block, sets the translation to
`−Rᵗt` and the bottom row to `(0,0,0,1)`; consequently composing it with
its argument gives the identity whenever the argument is rigid — rigidity
is a precondition, not a checked error. -/
theorem C7_rigid_inverse (M : M4) :
    rot (inv4 M) = (rot M)ᵀ ∧
    (∀ i : Fin 3, transl (inv4 M) i =
      -(Matrix.mulVec (rot M)ᵀ (transl M) i)) ∧
    (inv4 M 3 0 = 0 ∧ inv4 M 3 1 = 0 ∧ inv4 M 3 2 = 0 ∧ inv4 M 3 3 = 1) ∧
    (IsHTrans M → inv4 M * M = 1) := by
  refine ⟨?_, ?_, ⟨?_, ?_, ?_, ?_⟩, fun hM => inv4_mul_self hM⟩
  · ext a b
    fin_cases a <;> fin_cases b <;>
      simp [inv4, rot, Matrix.transpose_apply, finCS0, finCS1, finCS2,
        fv0, fv1, fv2, fv3]
  · intro i
    fin_cases i <;>
      simp [inv4, transl, Matrix.mulVec, dotProduct, Fin.sum_univ_three, rot,
        Matrix.transpose_apply, finCS0, finCS1, finCS2, fv0, fv1, fv2, fv3]
  · simp [inv4, fv0, fv3]
  · simp [inv4, fv1, fv3]
  · simp [inv4, fv2, fv3]
  · simp [inv4, fv3]

/-- Witness for C7: at the rigid transform `txM 2` the composition with the
rigid inverse is the identity. -/
theorem C7_rigid_inverse_witness : inv4 (txM 2) * txM 2 = 1 :=
  (C7_rigid_inverse (txM 2)).2.2.2 (axisM_isH Axis.Tx 2)

/-- When the chain's last element is static, the tool argument never
reaches the forward-sweep accumulator: the `i == m-1` fold sits inside the
joint branch only. -/
lemma j0cols_tool_irrel (q : ℕ → ℝ) (t : M4) (T : M4) :
    ∀ (ets : List ET) (e : ET), ets.getLast? = some e → e.isjoint = false →
    ∀ U : M4, j0cols q (some t) T ets U = j0cols q none T ets U := by
  intro ets
  induction ets with
  | nil => intro e he; simp at he
  | cons et rest ih =>
    intro e he hstatic U
    cases rest with
    | nil =>
      have hee : et = e := by simpa using he
      subst hee
      simp [j0cols, hstatic]
    | cons f fs =>
      have he' : (f :: fs).getLast? = some e := by
        simpa [List.getLast?_cons_cons] using he
      conv_lhs => rw [j0cols]
      conv_rhs => rw [j0cols]
      by_cases hj : et.isjoint = true
      · rw [if_pos hj, if_pos hj]
        simp only [List.isEmpty_cons, Bool.false_eq_true, if_false]
        rw [ih e he' hstatic]
      · rw [if_neg hj, if_neg hj]
        rw [ih e he' hstatic]

/-- C9: for a chain whose last element is Static and a non-null tool, the
base-frame Jacobian columns are computed from accumulators that exclude
the tool (the sweep behaves as if `tool` were NULL), while the precomputed
end pose `T` passed to every column does include the tool. -/
theorem C9_jacob0_tool_skipped (ets : List ET) (q : ℕ → ℝ) (t : M4) (e : ET)
    (hlast : ets.getLast? = some e) (hstatic : e.isjoint = false) :
    jacob0 ets q (some t) =
      j0cols q none (ETS_fkine ets q none (some t)) ets 1 ∧
    (∀ U : M4, j0cols q (some t) (ETS_fkine ets q none (some t)) ets U =
      j0cols q none (ETS_fkine ets q none (some t)) ets U) := by
  refine ⟨?_, fun U => j0cols_tool_irrel q t _ ets e hlast hstatic U⟩
  unfold jacob0
  exact j0cols_tool_irrel q t _ ets e hlast hstatic 1

/-- Witness for C9 at the concrete chain `[etJz, etStatic]` (static last)
with tool `tyM 2`. -/
theorem C9_jacob0_tool_skipped_witness :
    jacob0 ceEts qz (some (tyM 2)) =
      j0cols qz none (ETS_fkine ceEts qz none (some (tyM 2))) ceEts 1 :=
  (C9_jacob0_tool_skipped ceEts qz (tyM 2) etStatic (by simp [ceEts]) rfl).1

/-- Applying the rotation block of `U · S` to row 0 of `S`'s rotation block
recovers column 0 of `U`'s rotation block, for rigid `S`. -/
lemma rotApp_row0 (U S : M4) (hS : IsHTrans S) (i : Fin 3) :
    rotApp (U * S) (fun c => S 0 (Fin.castSucc c)) i = U (Fin.castSucc i) 0 := by
  obtain ⟨hR, hb0, hb1, hb2, hb3⟩ := hS
  have hent : ∀ m b : Fin 3, (rot S * (rot S)ᵀ) m b = (1 : M3) m b :=
    fun m b => by rw [hR]
  have hr00 : S 0 0 * S 0 0 + S 0 1 * S 0 1 + S 0 2 * S 0 2 = 1 := by
    simpa [rot, Matrix.mul_apply, Fin.sum_univ_three, Matrix.transpose_apply,
      Matrix.one_apply, finCS0, finCS1, finCS2] using hent 0 0
  have hr10 : S 1 0 * S 0 0 + S 1 1 * S 0 1 + S 1 2 * S 0 2 = 0 := by
    simpa [rot, Matrix.mul_apply, Fin.sum_univ_three, Matrix.transpose_apply,
      Matrix.one_apply, finCS0, finCS1, finCS2] using hent 1 0
  have hr20 : S 2 0 * S 0 0 + S 2 1 * S 0 1 + S 2 2 * S 0 2 = 0 := by
    simpa [rot, Matrix.mul_apply, Fin.sum_univ_three, Matrix.transpose_apply,
      Matrix.one_apply, finCS0, finCS1, finCS2] using hent 2 0
  simp only [rotApp, Matrix.mul_apply, Fin.sum_univ_four, finCS0, finCS1, finCS2]
  linear_combination U (Fin.castSucc i) 0 * hr00 + U (Fin.castSucc i) 1 * hr10 +
    U (Fin.castSucc i) 2 * hr20 + (U (Fin.castSucc i) 3 * S 0 0) * hb0 +
    (U (Fin.castSucc i) 3 * S 0 1) * hb1 + (U (Fin.castSucc i) 3 * S 0 2) * hb2

/-- Applying the rotation block of `U · S` to row 1 of `S`'s rotation block
recovers column 1 of `U`'s rotation block, for rigid `S`. -/
lemma rotApp_row1 (U S : M4) (hS : IsHTrans S) (i : Fin 3) :
    rotApp (U * S) (fun c => S 1 (Fin.castSucc c)) i = U (Fin.castSucc i) 1 := by
  obtain ⟨hR, hb0, hb1, hb2, hb3⟩ := hS
  have hent : ∀ m b : Fin 3, (rot S * (rot S)ᵀ) m b = (1 : M3) m b :=
    fun m b => by rw [hR]
  have hr01 : S 0 0 * S 1 0 + S 0 1 * S 1 1 + S 0 2 * S 1 2 = 0 := by
    simpa [rot, Matrix.mul_apply, Fin.sum_univ_three, Matrix.transpose_apply,
      Matrix.one_apply, finCS0, finCS1, finCS2] using hent 0 1
  have hr11 : S 1 0 * S 1 0 + S 1 1 * S 1 1 + S 1 2 * S 1 2 = 1 := by
    simpa [rot, Matrix.mul_apply, Fin.sum_univ_three, Matrix.transpose_apply,
      Matrix.one_apply, finCS0, finCS1, finCS2] using hent 1 1
  have hr21 : S 2 0 * S 1 0 + S 2 1 * S 1 1 + S 2 2 * S 1 2 = 0 := by
    simpa [rot, Matrix.mul_apply, Fin.sum_univ_three, Matrix.transpose_apply,
      Matrix.one_apply, finCS0, finCS1, finCS2] using hent 2 1
  simp only [rotApp, Matrix.mul_apply, Fin.sum_univ_four, finCS0, finCS1, finCS2]
  linear_combination U (Fin.castSucc i) 0 * hr01 + U (Fin.castSucc i) 1 * hr11 +
    U (Fin.castSucc i) 2 * hr21 + (U (Fin.castSucc i) 3 * S 1 0) * hb0 +
    (U (Fin.castSucc i) 3 * S 1 1) * hb1 + (U (Fin.castSucc i) 3 * S 1 2) * hb2

/-- Applying the rotation block of `U · S` to row 2 of `S`'s rotation block
recovers column 2 of `U`'s rotation block, for rigid `S`. -/
lemma rotApp_row2 (U S : M4) (hS : IsHTrans S) (i : Fin 3) :
    rotApp (U * S) (fun c => S 2 (Fin.castSucc c)) i = U (Fin.castSucc i) 2 := by
  obtain ⟨hR, hb0, hb1, hb2, hb3⟩ := hS
  have hent : ∀ m b : Fin 3, (rot S * (rot S)ᵀ) m b = (1 : M3) m b :=
    fun m b => by rw [hR]
  have hr02 : S 0 0 * S 2 0 + S 0 1 * S 2 1 + S 0 2 * S 2 2 = 0 := by
    simpa [rot, Matrix.mul_apply, Fin.sum_univ_three, Matrix.transpose_apply,
      Matrix.one_apply, finCS0, finCS1, finCS2] using hent 0 2
  have hr12 : S 1 0 * S 2 0 + S 1 1 * S 2 1 + S 1 2 * S 2 2 = 0 := by
    simpa [rot, Matrix.mul_apply, Fin.sum_univ_three, Matrix.transpose_apply,
      Matrix.one_apply, finCS0, finCS1, finCS2] using hent 1 2
  have hr22 : S 2 0 * S 2 0 + S 2 1 * S 2 1 + S 2 2 * S 2 2 = 1 := by
    simpa [rot, Matrix.mul_apply, Fin.sum_univ_three, Matrix.transpose_apply,
      Matrix.one_apply, finCS0, finCS1, finCS2] using hent 2 2
  simp only [rotApp, Matrix.mul_apply, Fin.sum_univ_four, finCS0, finCS1, finCS2]
  linear_combination U (Fin.castSucc i) 0 * hr02 + U (Fin.castSucc i) 1 * hr12 +
    U (Fin.castSucc i) 2 * hr22 + (U (Fin.castSucc i) 3 * S 2 0) * hb0 +
    (U (Fin.castSucc i) 3 * S 2 1) * hb1 + (U (Fin.castSucc i) 3 * S 2 2) * hb2

/-- `rotApp` distributes over the two-term linear combinations appearing in
the rotational Jacobian columns. -/
lemma rotApp_lin2 (T : M4) (f g : Fin 3 → ℝ) (β γ : ℝ) (i : Fin 3) :
    rotApp T (fun c => f c * β - g c * γ) i =
      rotApp T f i * β - rotApp T g i * γ := by
  simp only [rotApp]
  ring

/-- `rotApp` of the zero vector is zero. -/
lemma rotApp_zero (T : M4) (i : Fin 3) : rotApp T (fun _ => (0 : ℝ)) i = 0 := by
  simp [rotApp]

/-- The per-column relation between the two Jacobian sweeps: for a rigid
suffix `S`, the forward-frame axis column built from accumulator `U` and
`D = S` equals the rotation block of `U · S` applied to the tool-frame
axis column built from `S`. -/
lemma j0_je_col (ax : Axis) (U S : M4) (hS : IsHTrans S) :
    j0Column ax U S = blockRotCol (U * S) (jeColumn ax S) := by
  cases ax
  case Rx =>
    refine Prod.ext ?_ ?_
    · funext r
      rw [show (blockRotCol (U * S) (jeColumn Axis.Rx S)).1 =
          rotApp (U * S) (fun c => S 2 (Fin.castSucc c) * S 1 3 -
            S 1 (Fin.castSucc c) * S 2 3) from rfl,
        rotApp_lin2 (U * S) (fun c => S 2 (Fin.castSucc c))
          (fun c => S 1 (Fin.castSucc c)) (S 1 3) (S 2 3) r,
        rotApp_row2 U S hS r, rotApp_row1 U S hS r]
      rfl
    · funext r
      exact (rotApp_row0 U S hS r).symm
  case Ry =>
    refine Prod.ext ?_ ?_
    · funext r
      rw [show (blockRotCol (U * S) (jeColumn Axis.Ry S)).1 =
          rotApp (U * S) (fun c => S 0 (Fin.castSucc c) * S 2 3 -
            S 2 (Fin.castSucc c) * S 0 3) from rfl,
        rotApp_lin2 (U * S) (fun c => S 0 (Fin.castSucc c))
          (fun c => S 2 (Fin.castSucc c)) (S 2 3) (S 0 3) r,
        rotApp_row0 U S hS r, rotApp_row2 U S hS r]
      rfl
    · funext r
      exact (rotApp_row1 U S hS r).symm
  case Rz =>
    refine Prod.ext ?_ ?_
    · funext r
      rw [show (blockRotCol (U * S) (jeColumn Axis.Rz S)).1 =
          rotApp (U * S) (fun c => S 1 (Fin.castSucc c) * S 0 3 -
            S 0 (Fin.castSucc c) * S 1 3) from rfl,
        rotApp_lin2 (U * S) (fun c => S 1 (Fin.castSucc c))
          (fun c => S 0 (Fin.castSucc c)) (S 0 3) (S 1 3) r,
        rotApp_row1 U S hS r, rotApp_row0 U S hS r]
      rfl
    · funext r
      exact (rotApp_row2 U S hS r).symm
  case Tx =>
    refine Prod.ext ?_ ?_
    · funext r
      exact (rotApp_row0 U S hS r).symm
    · funext r
      exact (rotApp_zero (U * S) r).symm
  case Ty =>
    refine Prod.ext ?_ ?_
    · funext r
      exact (rotApp_row1 U S hS r).symm
    · funext r
      exact (rotApp_zero (U * S) r).symm
  case Tz =>
    refine Prod.ext ?_ ?_
    · funext r
      exact (rotApp_row2 U S hS r).symm
    · funext r
      exact (rotApp_zero (U * S) r).symm

/-- The reverse sweep's final accumulator is the chain product times the
seed. -/
lemma jecols_snd (q : ℕ → ℝ) :
    ∀ (ets : List ET) (U : M4), (jecols q ets U).2 = chainProd q ets * U := by
  intro ets
  induction ets with
  | nil => intro U; simp [jecols, chainProd]
  | cons et rest ih =>
    intro U
    have hc : chainProd q (et :: rest) = ET_T et (q et.jindex) * chainProd q rest := by
      simp [chainProd]
    by_cases hj : et.isjoint = true <;>
      simp [jecols, hj, ih, hc, mul_assoc]

/-- Main sweep correspondence: over a chain of rigid elements, the forward
`jacob0` sweep seeded with rigid prefix `P` (with no tool and end pose
`T = P · chainProd`) produces exactly the rotation block of `T` applied to
the reverse `jacobe` sweep's columns. -/
lemma j0cols_eq_jecols (q : ℕ → ℝ) :
    ∀ (ets : List ET), (∀ et ∈ ets, et.isjoint = false → IsHTrans et.T) →
    ∀ P : M4, IsHTrans P →
      j0cols q none (P * chainProd q ets) ets P =
        ((jecols q ets 1).1).map (blockRotCol (P * chainProd q ets)) := by
  intro ets
  induction ets with
  | nil => intro _h P _hP; simp [j0cols, jecols]
  | cons et rest ih =>
    intro h P hP
    have hA : IsHTrans (ET_T et (q et.jindex)) := ET_T_isH et (h et (by simp)) _
    have hrest : ∀ e ∈ rest, e.isjoint = false → IsHTrans e.T :=
      fun e he => h e (by simp [he])
    have hPA : IsHTrans (P * ET_T et (q et.jindex)) := isH_mul hP hA
    have hS : IsHTrans (chainProd q rest) := chainProd_isH q rest hrest
    have hT : P * chainProd q (et :: rest) =
        P * ET_T et (q et.jindex) * chainProd q rest := by
      simp [chainProd, mul_assoc]
    by_cases hj : et.isjoint = true
    · conv_lhs => rw [j0cols]
      rw [if_pos hj]
      simp only [ite_self]
      conv_rhs => rw [jecols]
      rw [if_pos hj]
      simp only [List.map_cons]
      have hD : inv4 (P * ET_T et (q et.jindex)) *
          (P * chainProd q (et :: rest)) = chainProd q rest := by
        rw [hT, ← mul_assoc, inv4_mul_self hPA, one_mul]
      congr 1
      · rw [hD, jecols_snd q rest 1, mul_one]
        rw [show P * chainProd q (et :: rest) =
          P * ET_T et (q et.jindex) * chainProd q rest from hT]
        exact j0_je_col et.axis (P * ET_T et (q et.jindex)) (chainProd q rest) hS
      · rw [hT]
        exact ih hrest (P * ET_T et (q et.jindex)) hPA
    · conv_lhs => rw [j0cols]
      rw [if_neg hj]
      conv_rhs => rw [jecols]
      rw [if_neg hj]
      rw [hT]
      exact ih hrest (P * ET_T et (q et.jindex)) hPA

/-- C3 (amended): for every chain of rigid elements and configuration `q`
(no tool), the base-frame and tool-frame Jacobians are related by the
rotation-only block-diagonal `diag(R, R)` of `T = forwardKinematics`, i.e.
the adjoint of `(R, 0)` — not the full twist adjoint with its `skew(t)·R`
coupling block. -/
theorem C3_jacobians_rotation_related (ets : List ET) (q : ℕ → ℝ)
    (h : ∀ et ∈ ets, et.isjoint = false → IsHTrans et.T) :
    jacob0 ets q none =
      (jacobe ets q none).map (blockRotCol (ETS_fkine ets q none none)) := by
  have hfk : ETS_fkine ets q none none = 1 * chainProd q ets := by
    rw [fkine_eq_prod]
    simp [chainProd]
  unfold jacob0 jacobe
  rw [hfk]
  simp only [Option.getD_none]
  exact j0cols_eq_jecols q ets h 1 isH_one

/-- Witness for C3's amended relation at the concrete rigid chain
`[etJz, etStatic]` with zero configuration. -/
theorem C3_jacobians_rotation_related_witness :
    jacob0 ceEts qz none =
      (jacobe ceEts qz none).map (blockRotCol (ETS_fkine ceEts qz none none)) := by
  refine C3_jacobians_rotation_related ceEts qz ?_
  intro et het hst
  simp only [ceEts, List.mem_cons, List.mem_singleton] at het
  rcases het with rfl | rfl | hF
  · exact absurd hst (by simp [etJz])
  · exact axisM_isH Axis.Tx 1
  · exact absurd hF (List.not_mem_nil et)

/-- The Z rotation at angle 0 is the identity. -/
lemma rzM_zero : rzM 0 = 1 := by
  ext i j
  fin_cases i <;> fin_cases j <;>
    simp [rzM, Matrix.one_apply, Real.cos_zero, Real.sin_zero,
      Matrix.vecHead, Matrix.vecTail]

/-- The rigid inverse of the identity. -/
lemma inv4_one : inv4 (1 : M4) = 1 := by
  ext i j
  fin_cases i <;> fin_cases j <;>
    simp [inv4, Matrix.one_apply, fv0, fv1, fv2, fv3]

/-- The concrete Z joint evaluated at 0. -/
lemma ET_T_ceJ : ET_T etJz 0 = 1 := by
  simp [ET_T, etJz, axisM, rzM_zero]

/-- Forward kinematics of the concrete chain at zero configuration. -/
lemma fkine_ce : ETS_fkine ceEts qz none none = txM 1 := by
  rw [fkine_eq_prod]
  have hJ : ET_T etJz (qz etJz.jindex) = 1 := ET_T_ceJ
  have hS : ET_T etStatic (qz etStatic.jindex) = txM 1 := rfl
  simp [ceEts, chainProd, hJ, hS]

/-- The base-frame Jacobian of the concrete chain evaluates to one
rotational column. -/
lemma jacob0_ce : jacob0 ceEts qz none = [j0Column Axis.Rz 1 (txM 1)] := by
  unfold jacob0
  rw [fkine_ce]
  show j0cols qz none (txM 1) [etJz, etStatic] 1 = _
  conv_lhs => rw [j0cols]
  rw [if_pos (show etJz.isjoint = true from rfl)]
  simp only [List.isEmpty_cons, Bool.false_eq_true, if_false]
  have hU : (1 : M4) * ET_T etJz (qz etJz.jindex) = 1 := by
    simp [qz, ET_T_ceJ]
  rw [hU, inv4_one, one_mul]
  rw [show j0cols qz none (txM 1) [etStatic] 1 = [] from by
    rw [j0cols, if_neg (show ¬ etStatic.isjoint = true from by simp [etStatic]),
      j0cols]]
  rfl

/-- The tool-frame Jacobian of the concrete chain evaluates to one
rotational column. -/
lemma jacobe_ce : jacobe ceEts qz none = [jeColumn Axis.Rz (txM 1)] := by
  unfold jacobe
  simp only [Option.getD_none]
  show (jecols qz [etJz, etStatic] 1).1 = _
  have h2 : jecols qz [etStatic] 1 = ([], txM 1) := by
    rw [jecols, jecols]
    show ((([] : List Col), ET_T etStatic (qz etStatic.jindex) * 1) :
      List Col × M4) = ([], txM 1)
    rw [mul_one]
    rfl
  rw [jecols, h2]
  rfl

/-- The concrete forward-frame column value. -/
lemma j0col_val :
    j0Column Axis.Rz 1 (txM 1) = (![(0 : ℝ), 1, 0], ![(0 : ℝ), 0, 1]) := by
  refine Prod.ext ?_ ?_ <;> funext r <;> fin_cases r <;>
    simp [j0Column, txM, Matrix.one_apply, Matrix.vecHead, Matrix.vecTail,
      finCS0, finCS1, finCS2]

/-- The concrete tool-frame column value. -/
lemma jecol_val :
    jeColumn Axis.Rz (txM 1) = (![(0 : ℝ), 1, 0], ![(0 : ℝ), 0, 1]) := by
  refine Prod.ext ?_ ?_ <;> funext r <;> fin_cases r <;>
    simp [jeColumn, txM, Matrix.vecHead, Matrix.vecTail, finCS0, finCS1, finCS2]

/-- The full twist adjoint of `txM 1` kills the linear part of the concrete
tool-frame column: the `skew(t)·R` coupling cancels it. -/
lemma adcol_val :
    adCol (txM 1) (![(0 : ℝ), 1, 0], ![(0 : ℝ), 0, 1]) =
      (![(0 : ℝ), 0, 0], ![(0 : ℝ), 0, 1]) := by
  refine Prod.ext ?_ ?_ <;> funext r <;> fin_cases r <;>
    simp [adCol, rotApp, cross3, transl, txM, Matrix.vecHead, Matrix.vecTail,
      finCS0, finCS1, finCS2]

/-- Counterexample to C3 as stated: on the chain `[RotZ joint, static
Tx(1)]` at `q = 0` (no tool), the base-frame Jacobian does NOT equal the
standard twist adjoint `Ad(T)` applied to the tool-frame Jacobian — the
`skew(t)·R` block zeroes the linear column the code actually produces. -/
theorem C3_adjoint_counterexample :
    jacob0 ceEts qz none ≠
      (jacobe ceEts qz none).map (adCol (ETS_fkine ceEts qz none none)) := by
  rw [jacob0_ce, j0col_val, jacobe_ce, jecol_val, fkine_ce, List.map_cons,
    List.map_nil, adcol_val]
  intro hEq
  simp only [List.cons.injEq, and_true] at hEq
  have h2 := congrArg (fun p : Col => p.1 1) hEq
  norm_num at h2

end RTB
